import Mathlib

/-!
Verification of the Arb-Finder odds pipeline (`arbing.py`).

The source program has three core pieces:

* `process_data` — the match normalizer: per raw match it builds the
  best-odds dictionary across bookmakers and the summed implied
  probability, skipping already-started matches (optionally) and matches
  with fewer than two outcomes;
* the opportunity filter inside `get_arbitrage_opportunities`
  (`0 < total_implied_odds < 1 - cutoff`);
* `calculate_stakes` — the largest-remainder integer stake allocator.

Python dictionaries are modelled as insertion-ordered association lists,
decimal prices as rationals, and Python exceptions (`KeyError`,
`IndexError`, `ZeroDivisionError`) as `Except String` errors.  `time.time()`
is passed in explicitly as a rational `now` parameter.
-/

namespace ArbFinder

/-- An outcome quote inside a bookmaker market: `{"name": ..., "price": ...}`.
Both keys are accessed with `[]` in the source, so they are required. -/
structure Outcome where
  name : String
  price : ℚ
deriving DecidableEq, Repr

/-- A market: the `"outcomes"` key is read with `.get("outcomes", [])`, so it
may be absent. -/
structure Market where
  outcomes : Option (List Outcome)
deriving DecidableEq, Repr

/-- A bookmaker record: `"title"` is accessed with `[]` (required), while
`"markets"` is read with `.get("markets", [{}])` and may be absent. -/
structure Bookmaker where
  title : String
  markets : Option (List Market)
deriving DecidableEq, Repr

/-- A raw match record from the data source.  `commence_time` is accessed as
`match["commence_time"]` (required: a missing key raises `KeyError`); the
other fields are read with `.get` and may be absent. -/
structure RawMatch where
  home_team : Option String
  away_team : Option String
  sport_key : Option String
  commence_time : Option Int
  bookmakers : Option (List Bookmaker)
deriving DecidableEq, Repr

/-- The dictionary yielded per match by `process_data`.  `best_odds` is the
insertion-ordered dict mapping outcome name to (bookmaker title, price). -/
structure NormalizedMatch where
  match_name : String
  match_start_time : Int
  hours_to_start : ℚ
  league : Option String
  best_odds : List (String × String × ℚ)
  total_implied_odds : ℚ
deriving DecidableEq, Repr

/-- Python `f"{x}"` for a value obtained from `.get`: `None` prints as
`"None"`. -/
def pyStr : Option String → String
  | none => "None"
  | some s => s

/-- Python `int(x)` on a float/rational: truncation toward zero. -/
def int_trunc (q : ℚ) : ℤ :=
  if q < 0 then ⌈q⌉ else ⌊q⌋

/-- Python `round(x)` (banker's rounding, round half to even). -/
def pyRoundInt (q : ℚ) : ℤ :=
  let f := ⌊q⌋
  let frac := q - f
  if frac < 1 / 2 then f
  else if 1 / 2 < frac then f + 1
  else if f % 2 = 0 then f else f + 1

/-- Python `round(x, 2)`. -/
def round2 (q : ℚ) : ℚ :=
  (pyRoundInt (q * 100) : ℚ) / 100

/-- Python `1 / q`: raises `ZeroDivisionError` on a zero divisor. -/
def safeInv (q : ℚ) : Except String ℚ :=
  if q = 0 then .error "ZeroDivisionError: float division by zero"
  else .ok (1 / q)

/-- Python `a / b`: raises `ZeroDivisionError` on a zero divisor. -/
def safeDiv (a b : ℚ) : Except String ℚ :=
  if b = 0 then .error "ZeroDivisionError: float division by zero"
  else .ok (a / b)

/-! ### The best-odds dictionary

`best_odds` is a Python dict from outcome name to `(bookmaker title, price)`,
modelled as an insertion-ordered association list of triples
`(name, title, price)`. -/

/-- Dictionary lookup: first entry with the given key. -/
def lookupA (k : String) : List (String × String × ℚ) → Option (String × ℚ)
  | [] => none
  | e :: rest => if e.1 = k then some (e.2.1, e.2.2) else lookupA k rest

/-- Dictionary update of an existing key: replaces the value in place,
keeping the key's original insertion position. -/
def updAssoc (k : String) (v : String × ℚ) :
    List (String × String × ℚ) → List (String × String × ℚ)
  | [] => []
  | e :: rest => if e.1 = k then (k, v.1, v.2) :: rest else e :: updAssoc k v rest

/-- One step of the best-odds accumulation (`arbing.py` lines 73-76):
`if name not in best_odds or price > best_odds[name][1]:
best_odds[name] = (bookmaker["title"], price)`. -/
def dictInsertBest (acc : List (String × String × ℚ)) (name title : String)
    (price : ℚ) : List (String × String × ℚ) :=
  match lookupA name acc with
  | none => acc ++ [(name, title, price)]
  | some (_, p0) => if p0 < price then updAssoc name (title, price) acc else acc

/-- Folding a flat stream of `(name, title, price)` quotes into the
best-odds dict. -/
def foldQuotes (qs : List (String × String × ℚ)) : List (String × String × ℚ) :=
  qs.foldl (fun acc q => dictInsertBest acc q.1 q.2.1 q.2.2) []

/-- `bookmaker.get("markets", [{}])[0].get("outcomes", [])` — the `[0]`
subscript raises `IndexError` when the `markets` key is present but holds an
empty list. -/
def bookmakerOutcomes (b : Bookmaker) : Except String (List Outcome) :=
  match b.markets.getD [{ outcomes := none }] with
  | [] => .error "IndexError: list index out of range"
  | m :: _ => .ok (m.outcomes.getD [])

/-- The outcomes a bookmaker contributes when no `IndexError` occurs
(pure view of `bookmakerOutcomes`). -/
def outcomesOf (b : Bookmaker) : List Outcome :=
  match b.markets.getD [{ outcomes := none }] with
  | [] => []
  | m :: _ => m.outcomes.getD []

/-- The flat stream of `(outcome name, bookmaker title, price)` quotes in
iteration order (bookmakers outer, outcomes inner). -/
def quotesOf : List Bookmaker → List (String × String × ℚ)
  | [] => []
  | b :: rest => (outcomesOf b).map (fun o => (o.name, b.title, o.price)) ++ quotesOf rest

/-- The bookmaker loop of `process_data` (lines 71-76), accumulating the
best-odds dict; errors abort the match (propagate out of the generator). -/
def buildBestOddsAux (acc : List (String × String × ℚ)) :
    List Bookmaker → Except String (List (String × String × ℚ))
  | [] => .ok acc
  | b :: rest =>
    match bookmakerOutcomes b with
    | .error msg => .error msg
    | .ok outs =>
      buildBestOddsAux (outs.foldl (fun a o => dictInsertBest a o.name b.title o.price) acc) rest

/-- The full best-odds dict of a match. -/
def buildBestOdds (bs : List Bookmaker) : Except String (List (String × String × ℚ)) :=
  buildBestOddsAux [] bs

/-- `sum(1 / odds for _, odds in best_odds.values())` (line 81): summing the
implied probabilities, raising `ZeroDivisionError` on a zero price. -/
def sumInv : List (String × String × ℚ) → Except String ℚ
  | [] => .ok 0
  | e :: rest =>
    match safeInv e.2.2 with
    | .error msg => .error msg
    | .ok i =>
      match sumInv rest with
      | .error msg => .error msg
      | .ok s => .ok (i + s)

/-! ### The normalizer `process_data` -/

/-- The body of the `process_data` loop after the start-time check
(lines 70-89). -/
def processMatchRest (now : ℚ) (m : RawMatch) (start_time : Int) :
    Except String (Option NormalizedMatch) :=
  match buildBestOdds (m.bookmakers.getD []) with
  | .error msg => .error msg
  | .ok best_odds =>
    if best_odds.length < 2 then .ok none
    else
      match sumInv best_odds with
      | .error msg => .error msg
      | .ok total_implied =>
        .ok (some {
          match_name := pyStr m.home_team ++ " v. " ++ pyStr m.away_team
          match_start_time := start_time
          hours_to_start := round2 (((start_time : ℚ) - now) / 3600)
          league := m.sport_key
          best_odds := best_odds
          total_implied_odds := total_implied })

/-- One iteration of the `process_data` loop: `.ok none` models `continue`
(the match is skipped), `.ok (some nm)` models `yield`, `.error` a raised
exception.  `now` is the wall-clock value of `time.time()`. -/
def processMatch (now : ℚ) (include_started_matches : Bool) (m : RawMatch) :
    Except String (Option NormalizedMatch) :=
  match m.commence_time with
  | none => .error "KeyError: commence_time"
  | some start_time =>
    if include_started_matches = false ∧ (start_time : ℚ) < now then .ok none
    else processMatchRest now m start_time

/-- `process_data` over a finite list of raw matches, materialized eagerly. -/
def process_data (now : ℚ) (include_started_matches : Bool) :
    List RawMatch → Except String (List NormalizedMatch)
  | [] => .ok []
  | m :: rest =>
    match processMatch now include_started_matches m with
    | .error msg => .error msg
    | .ok o =>
      match process_data now include_started_matches rest with
      | .error msg => .error msg
      | .ok l => .ok (match o with | none => l | some nm => nm :: l)

/-! ### The opportunity filter -/

/-- The qualification test of `get_arbitrage_opportunities` (line 144):
`0 < match["total_implied_odds"] < 1 - cutoff`. -/
def qualifies (total_implied_odds cutoff : ℚ) : Bool :=
  decide (0 < total_implied_odds) && decide (total_implied_odds < 1 - cutoff)

/-- The matches `get_arbitrage_opportunities` reports, out of a normalized
stream. -/
def arbitrage_candidates (ms : List NormalizedMatch) (cutoff : ℚ) :
    List NormalizedMatch :=
  ms.filter (fun m => qualifies m.total_implied_odds cutoff)

/-! ### The stake allocator `calculate_stakes` -/

/-- Step 1 (line 98): `{outcome: 1 / data[1] for outcome, data in
odds_dict.items()}` — raises `ZeroDivisionError` at the first zero price. -/
def invList : List (String × String × ℚ) → Except String (List (String × ℚ))
  | [] => .ok []
  | e :: rest =>
    match safeInv e.2.2 with
    | .error msg => .error msg
    | .ok i =>
      match invList rest with
      | .error msg => .error msg
      | .ok l => .ok ((e.1, i) :: l)

/-- Step 2 (lines 102-105): `(inv / total_inverse) * total_stake` per
outcome. -/
def idealList (total_inverse : ℚ) (total_stake : ℤ) :
    List (String × ℚ) → Except String (List (String × ℚ))
  | [] => .ok []
  | e :: rest =>
    match safeDiv e.2 total_inverse with
    | .error msg => .error msg
    | .ok q =>
      match idealList total_inverse total_stake rest with
      | .error msg => .error msg
      | .ok l => .ok ((e.1, q * (total_stake : ℚ)) :: l)

/-- Stable descending insertion, used to model Python's stable
`sorted(..., reverse=True)`: the new element goes before the first element
whose key is not larger, so earlier input elements win ties. -/
def insertDesc (x : String × ℚ) : List (String × ℚ) → List (String × ℚ)
  | [] => [x]
  | y :: ys => if y.2 ≤ x.2 then x :: y :: ys else y :: insertDesc x ys

/-- Python `sorted(d, key=d.get, reverse=True)` on an insertion-ordered dict:
a stable descending sort by value. -/
def sortDesc (l : List (String × ℚ)) : List (String × ℚ) :=
  l.foldr insertDesc []

/-- Dictionary lookup of an integer-valued dict (`rounded_stakes[outcome]`);
the default `0` is never reached in the program, where the key is always
present. -/
def dictGet (l : List (String × ℤ)) (k : String) : ℤ :=
  match l with
  | [] => 0
  | e :: rest => if e.1 = k then e.2 else dictGet rest k

/-- `calculate_stakes` (lines 92-135): largest-remainder integer allocation.
Dicts keyed by the outcomes of `odds_dict` are represented as association
lists in the same (insertion) order. -/
def calculate_stakes (odds_dict : List (String × String × ℚ)) (total_stake : ℤ) :
    Except String (List (String × String × ℚ × ℤ × ℚ)) :=
  match invList odds_dict with
  | .error msg => .error msg
  | .ok inverse_odds =>
    let total_inverse := (inverse_odds.map (·.2)).sum
    match idealList total_inverse total_stake inverse_odds with
    | .error msg => .error msg
    | .ok ideal_stakes =>
      let rounded_stakes := ideal_stakes.map (fun e => (e.1, int_trunc e.2))
      let remainder := total_stake - (rounded_stakes.map (·.2)).sum
      let final_stakes :=
        if 0 < remainder then
          let stake_diffs := ideal_stakes.map (fun e => (e.1, e.2 - (int_trunc e.2 : ℚ)))
          let winners := ((sortDesc stake_diffs).map (·.1)).take remainder.toNat
          rounded_stakes.map (fun e => if e.1 ∈ winners then (e.1, e.2 + 1) else e)
        else rounded_stakes
      .ok (odds_dict.map (fun e =>
        (e.1, e.2.1, e.2.2, dictGet final_stakes e.1,
          round2 ((dictGet final_stakes e.1 : ℚ) * e.2.2 - (total_stake : ℚ)))))

/-! ### Pure views of the allocator pipeline (meaningful when all prices are
positive, so that no `ZeroDivisionError` occurs) -/

/-- Pure view of step 1. -/
def invOf (odds : List (String × String × ℚ)) : List (String × ℚ) :=
  odds.map (fun e => (e.1, 1 / e.2.2))

/-- `total_inverse`: the sum of the inverse odds. -/
def totalInv (odds : List (String × String × ℚ)) : ℚ :=
  ((invOf odds).map (·.2)).sum

/-- The ideal (real-valued) share of an outcome with the given price:
`(1/price) / total_inverse * total_stake`. -/
def idealShare (odds : List (String × String × ℚ)) (total_stake : ℤ) (price : ℚ) : ℚ :=
  1 / price / totalInv odds * (total_stake : ℚ)

/-- Pure view of step 2. -/
def idealOf (odds : List (String × String × ℚ)) (total_stake : ℤ) : List (String × ℚ) :=
  (invOf odds).map (fun e => (e.1, e.2 / totalInv odds * (total_stake : ℚ)))

/-- Pure view of step 3 (floored stakes). -/
def roundedOf (odds : List (String × String × ℚ)) (total_stake : ℤ) : List (String × ℤ) :=
  (idealOf odds total_stake).map (fun e => (e.1, int_trunc e.2))

/-- Pure view of the remainder of step 4. -/
def remainderOf (odds : List (String × String × ℚ)) (total_stake : ℤ) : ℤ :=
  total_stake - ((roundedOf odds total_stake).map (·.2)).sum

/-- Pure view of `stake_diffs` (fractional remainders). -/
def diffsOf (odds : List (String × String × ℚ)) (total_stake : ℤ) : List (String × ℚ) :=
  (idealOf odds total_stake).map (fun e => (e.1, e.2 - (int_trunc e.2 : ℚ)))

/-- The outcomes awarded one extra unit: the top `remainder` names of the
stable descending ranking by fractional remainder. -/
def winnersOf (odds : List (String × String × ℚ)) (total_stake : ℤ) : List String :=
  ((sortDesc (diffsOf odds total_stake)).map (·.1)).take (remainderOf odds total_stake).toNat

/-- Pure view of the adjusted stakes after step 4. -/
def finalOf (odds : List (String × String × ℚ)) (total_stake : ℤ) : List (String × ℤ) :=
  if 0 < remainderOf odds total_stake then
    (roundedOf odds total_stake).map
      (fun e => if e.1 ∈ winnersOf odds total_stake then (e.1, e.2 + 1) else e)
  else roundedOf odds total_stake

/-- Pure view of the full result of `calculate_stakes`. -/
def resultOf (odds : List (String × String × ℚ)) (total_stake : ℤ) :
    List (String × String × ℚ × ℤ × ℚ) :=
  odds.map (fun e =>
    (e.1, e.2.1, e.2.2, dictGet (finalOf odds total_stake) e.1,
      round2 ((dictGet (finalOf odds total_stake) e.1 : ℚ) * e.2.2 - (total_stake : ℚ))))

/-! ### Concrete inputs used in examples and witnesses -/

deriving instance DecidableEq for Except

/-- The odds mapping of the spec's worked example: `{A: 1.5, B: 3.0}`. -/
def oddsC8 : List (String × String × ℚ) := [("A", "BookieX", 3 / 2), ("B", "BookieY", 3)]

/-- An odds mapping holding a zero price. -/
def oddsZero : List (String × String × ℚ) := [("A", "BK", 0)]

/-- A raw match whose `home_team` key is absent. -/
def mNoHome : RawMatch :=
  { home_team := none, away_team := some "Away", sport_key := some "soccer",
    commence_time := some 0,
    bookmakers := some [⟨"BK", some [⟨some [⟨"A", 2⟩, ⟨"B", 2⟩]⟩]⟩] }

/-- A raw match whose `commence_time` key is absent. -/
def mNoCommence : RawMatch :=
  { home_team := some "H", away_team := some "A", sport_key := some "s",
    commence_time := none, bookmakers := some [] }

/-- A fully populated raw match with one bookmaker quoting two outcomes. -/
def mFull : RawMatch :=
  { home_team := some "H", away_team := some "A", sport_key := some "s",
    commence_time := some 0,
    bookmakers := some [⟨"BK", some [⟨some [⟨"A", 2⟩, ⟨"B", 2⟩]⟩]⟩] }

/-- The normalized match `process_data` yields for `mFull` at `now = 0`. -/
def nmFull : NormalizedMatch :=
  { match_name := "H v. A", match_start_time := 0, hours_to_start := 0,
    league := some "s", best_odds := [("A", "BK", 2), ("B", "BK", 2)],
    total_implied_odds := 1 }

/-- A bookmaker whose `markets` key is present but holds an empty list. -/
def bEmptyMarkets : Bookmaker := ⟨"BK", some []⟩

/-- A bookmaker whose `markets` key is absent. -/
def bNoMarkets : Bookmaker := ⟨"BK", none⟩

/-- A raw match containing a bookmaker with a present-but-empty market
list. -/
def mEmptyMarkets : RawMatch :=
  { home_team := some "H", away_team := some "A", sport_key := some "s",
    commence_time := some 0, bookmakers := some [bEmptyMarkets] }

/-- A raw match that commences at time 0 (in the past relative to
`now = 1`). -/
def mPast : RawMatch :=
  { home_team := some "H", away_team := some "A", sport_key := some "s",
    commence_time := some 0, bookmakers := some [] }

/-- The spec's end-to-end example: Bookmaker1 quotes A@2.10, B@2.05 and
Bookmaker2 quotes A@2.00, B@2.20. -/
def bsC2 : List Bookmaker :=
  [⟨"Bookmaker1", some [⟨some [⟨"A", 21 / 10⟩, ⟨"B", 41 / 20⟩]⟩]⟩,
   ⟨"Bookmaker2", some [⟨some [⟨"A", 2⟩, ⟨"B", 11 / 5⟩]⟩]⟩]

/-- The best quote a left-to-right scan selects for a given outcome name:
the first quote attaining the maximum price (a later quote replaces the
current one only when strictly better). -/
def bestQuoteL (nm : String) : List (String × String × ℚ) → Option (String × ℚ)
  | [] => none
  | q :: rest =>
    if q.1 = nm then
      match bestQuoteL nm rest with
      | none => some (q.2.1, q.2.2)
      | some (b, p) => if q.2.2 < p then some (b, p) else some (q.2.1, q.2.2)
    else bestQuoteL nm rest

/-- Combination of an already-selected quote with the selection from a later
stream segment: the later segment wins only with a strictly higher price. -/
def combineOpt (cur new : Option (String × ℚ)) : Option (String × ℚ) :=
  match new with
  | none => cur
  | some (b, p) =>
    match cur with
    | none => some (b, p)
    | some (b0, p0) => if p0 < p then some (b, p) else some (b0, p0)

/-! ## Basic list helpers -/

theorem sum_map_add_int {α : Type} (l : List α) (f g : α → ℤ) :
    (l.map fun x => f x + g x).sum = (l.map f).sum + (l.map g).sum := by
  induction l with
  | nil => simp
  | cons a t ih => simp only [List.map_cons, List.sum_cons, ih]; ring

theorem intCast_list_sum (l : List ℤ) :
    ((l.sum : ℤ) : ℚ) = (l.map fun n : ℤ => (n : ℚ)).sum := by
  induction l with
  | nil => simp
  | cons a t ih => simp [ih]

theorem int_trunc_eq_floor {q : ℚ} (h : 0 ≤ q) : int_trunc q = ⌊q⌋ := by
  simp [int_trunc, not_lt.2 h]

/-! ## Stable descending sort -/

theorem insertDesc_perm (x : String × ℚ) (l : List (String × ℚ)) :
    List.Perm (insertDesc x l) (x :: l) := by
  induction l with
  | nil => simp [insertDesc]
  | cons y ys ih =>
    by_cases h : y.2 ≤ x.2
    · simp [insertDesc, h]
    · simp only [insertDesc, if_neg h]
      exact (ih.cons y).trans (List.Perm.swap x y ys)

theorem sortDesc_perm (l : List (String × ℚ)) : List.Perm (sortDesc l) l := by
  induction l with
  | nil => exact List.Perm.refl _
  | cons x t ih => exact (insertDesc_perm x (sortDesc t)).trans (ih.cons x)

theorem insertDesc_sorted (x : String × ℚ) (l : List (String × ℚ))
    (h : l.Pairwise (fun a b => b.2 ≤ a.2)) :
    (insertDesc x l).Pairwise (fun a b => b.2 ≤ a.2) := by
  induction l with
  | nil => simp [insertDesc]
  | cons y ys ih =>
    obtain ⟨hy, hys⟩ := List.pairwise_cons.1 h
    by_cases hxy : y.2 ≤ x.2
    · simp only [insertDesc, if_pos hxy]
      refine List.pairwise_cons.2 ⟨?_, h⟩
      intro z hz
      rcases List.mem_cons.1 hz with rfl | hz
      · exact hxy
      · exact (hy z hz).trans hxy
    · simp only [insertDesc, if_neg hxy]
      refine List.pairwise_cons.2 ⟨?_, ih hys⟩
      intro z hz
      rcases List.mem_cons.1 ((insertDesc_perm x ys).mem_iff.1 hz) with rfl | hz2
      · exact le_of_not_le hxy
      · exact hy z hz2

theorem sortDesc_sorted (l : List (String × ℚ)) :
    (sortDesc l).Pairwise (fun a b => b.2 ≤ a.2) := by
  induction l with
  | nil => simp [sortDesc]
  | cons x t ih => exact insertDesc_sorted x (sortDesc t) ih

theorem insertDesc_filter_key (x : String × ℚ) (l : List (String × ℚ)) (q : ℚ) :
    (insertDesc x l).filter (fun e => decide (e.2 = q)) =
      ((x :: l).filter (fun e => decide (e.2 = q))) := by
  induction l with
  | nil => rfl
  | cons y ys ih =>
    by_cases hxy : y.2 ≤ x.2
    · simp [insertDesc, hxy]
    · simp only [insertDesc, if_neg hxy]
      by_cases hy : y.2 = q
      · have hx : ¬x.2 = q := fun hh => hxy (by rw [hh, hy])
        simp [List.filter_cons, hy, hx, ih]
      · by_cases hx : x.2 = q
        · simp [List.filter_cons, hy, hx, ih]
        · simp [List.filter_cons, hy, hx, ih]

theorem sortDesc_filter_key (l : List (String × ℚ)) (q : ℚ) :
    (sortDesc l).filter (fun e => decide (e.2 = q)) =
      l.filter (fun e => decide (e.2 = q)) := by
  induction l with
  | nil => rfl
  | cons x t ih =>
    calc (sortDesc (x :: t)).filter (fun e => decide (e.2 = q))
        = (x :: sortDesc t).filter (fun e => decide (e.2 = q)) :=
          insertDesc_filter_key x (sortDesc t) q
      _ = (x :: t).filter (fun e => decide (e.2 = q)) := by
          simp only [List.filter_cons]
          rw [ih]

/-! ## Dictionary lookup -/

theorem dictGet_of_mem {l : List (String × ℤ)} {k : String} {v : ℤ}
    (hnd : (l.map (·.1)).Nodup) (hm : (k, v) ∈ l) : dictGet l k = v := by
  induction l with
  | nil => cases hm
  | cons e t ih =>
    simp only [List.map_cons, List.nodup_cons] at hnd
    rcases List.mem_cons.1 hm with he | ht
    · rw [← he]
      simp [dictGet]
    · have hk : e.1 ≠ k := by
        intro hck
        exact hnd.1 (hck ▸ List.mem_map.2 ⟨(k, v), ht, rfl⟩)
      simp only [dictGet, if_neg hk]
      exact ih hnd.2 ht

theorem countP_mem_eq_length {names w : List String} (hn : names.Nodup)
    (hw : w.Nodup) (hsub : ∀ x ∈ w, x ∈ names) :
    (names.countP fun n => decide (n ∈ w)) = w.length := by
  rw [List.countP_eq_length_filter]
  have hperm : List.Perm (names.filter (fun n => decide (n ∈ w))) w := by
    refine (List.perm_ext_iff_of_nodup (hn.filter _) hw).2 ?_
    intro a
    simp only [List.mem_filter, decide_eq_true_eq]
    exact ⟨fun h => h.2, fun h => ⟨hsub a h, h⟩⟩
  exact hperm.length_eq

/-! ## The allocator pipeline under positive prices -/

theorem invList_ok {odds : List (String × String × ℚ)}
    (h : ∀ e ∈ odds, e.2.2 ≠ 0) : invList odds = .ok (invOf odds) := by
  induction odds with
  | nil => rfl
  | cons e t ih =>
    have he : e.2.2 ≠ 0 := h e (List.mem_cons_self e t)
    have ht : ∀ x ∈ t, x.2.2 ≠ 0 := fun x hx => h x (List.mem_cons_of_mem e hx)
    simp [invList, safeInv, he, ih ht, invOf]

theorem idealList_ok {T : ℚ} (hT : T ≠ 0) (S : ℤ) (l : List (String × ℚ)) :
    idealList T S l = .ok (l.map fun e => (e.1, e.2 / T * (S : ℚ))) := by
  induction l with
  | nil => rfl
  | cons e t ih => simp [idealList, safeDiv, hT, ih]

theorem totalInv_pos {odds : List (String × String × ℚ)}
    (hpos : ∀ e ∈ odds, 0 < e.2.2) (hne : odds ≠ []) : 0 < totalInv odds := by
  have hrw : totalInv odds = (odds.map fun e => 1 / e.2.2).sum := by
    rw [totalInv, invOf, List.map_map]
    rfl
  rw [hrw]
  refine List.sum_pos _ ?_ ?_
  · intro x hx
    obtain ⟨e, he, rfl⟩ := List.mem_map.1 hx
    exact div_pos one_pos (hpos e he)
  · simpa using hne

theorem idealShare_nonneg {odds : List (String × String × ℚ)} {S : ℤ} {p : ℚ}
    (hp : 0 < p) (hT : 0 < totalInv odds) (hS : 0 ≤ S) :
    0 ≤ idealShare odds S p := by
  have hS' : (0 : ℚ) ≤ (S : ℚ) := by exact_mod_cast hS
  exact mul_nonneg (le_of_lt (div_pos (div_pos one_pos hp) hT)) hS'

theorem calculate_stakes_eq {odds : List (String × String × ℚ)} {S : ℤ}
    (hpos : ∀ e ∈ odds, 0 < e.2.2) (hne : odds ≠ []) :
    calculate_stakes odds S = .ok (resultOf odds S) := by
  have hnz : ∀ e ∈ odds, e.2.2 ≠ 0 := fun e he => ne_of_gt (hpos e he)
  have hT : (((invOf odds).map (·.2)).sum : ℚ) ≠ 0 :=
    ne_of_gt (totalInv_pos hpos hne)
  have h2 : idealList (((invOf odds).map (·.2)).sum) S (invOf odds) =
      .ok (idealOf odds S) := idealList_ok hT S (invOf odds)
  simp only [calculate_stakes, invList_ok hnz, h2, resultOf, finalOf, winnersOf,
    diffsOf, remainderOf, roundedOf, idealOf, totalInv]

theorem idealOf_eq (odds : List (String × String × ℚ)) (S : ℤ) :
    idealOf odds S = odds.map (fun e => (e.1, idealShare odds S e.2.2)) := by
  simp [idealOf, invOf, idealShare, List.map_map, Function.comp]

theorem sum_ideal {odds : List (String × String × ℚ)} {S : ℤ}
    (hpos : ∀ e ∈ odds, 0 < e.2.2) (hne : odds ≠ []) :
    ((idealOf odds S).map (·.2)).sum = (S : ℚ) := by
  have hT : totalInv odds ≠ 0 := ne_of_gt (totalInv_pos hpos hne)
  calc ((idealOf odds S).map (·.2)).sum
      = ((invOf odds).map (fun e => e.2 * ((S : ℚ) / totalInv odds))).sum := by
        rw [idealOf, List.map_map]
        refine congrArg List.sum (List.map_congr_left ?_)
        intro e _
        simp only [Function.comp_apply]
        rw [div_mul_eq_mul_div, mul_div_assoc]
    _ = ((invOf odds).map (·.2)).sum * ((S : ℚ) / totalInv odds) :=
        List.sum_map_mul_right _ _ _
    _ = (S : ℚ) := by
        rw [show ((invOf odds).map (·.2)).sum = totalInv odds from rfl, mul_comm,
          div_mul_cancel₀ _ hT]

theorem roundedOf_eq {odds : List (String × String × ℚ)} {S : ℤ}
    (hpos : ∀ e ∈ odds, 0 < e.2.2) (hne : odds ≠ []) (hS : 0 ≤ S) :
    roundedOf odds S = odds.map (fun e => (e.1, ⌊idealShare odds S e.2.2⌋)) := by
  rw [roundedOf, idealOf_eq, List.map_map]
  refine List.map_congr_left ?_
  intro e he
  simp only [Function.comp_apply]
  rw [int_trunc_eq_floor (idealShare_nonneg (hpos e he) (totalInv_pos hpos hne) hS)]

theorem diffsOf_eq {odds : List (String × String × ℚ)} {S : ℤ}
    (hpos : ∀ e ∈ odds, 0 < e.2.2) (hne : odds ≠ []) (hS : 0 ≤ S) :
    diffsOf odds S = odds.map (fun e => (e.1, Int.fract (idealShare odds S e.2.2))) := by
  rw [diffsOf, idealOf_eq, List.map_map]
  refine List.map_congr_left ?_
  intro e he
  simp only [Function.comp_apply]
  rw [int_trunc_eq_floor (idealShare_nonneg (hpos e he) (totalInv_pos hpos hne) hS),
    Int.self_sub_floor]

theorem sum_le_floor_add_length (l : List ℚ) :
    l.sum ≤ (l.map fun q => (⌊q⌋ : ℚ)).sum + l.length := by
  induction l with
  | nil => simp
  | cons a t ih =>
    simp only [List.sum_cons, List.map_cons, List.length_cons]
    have h1 : a ≤ (⌊a⌋ : ℚ) + 1 := le_of_lt (Int.lt_floor_add_one a)
    push_cast
    push_cast at ih
    linarith

theorem sum_lt_floor_add_length {l : List ℚ} (h : l ≠ []) :
    l.sum < (l.map fun q => (⌊q⌋ : ℚ)).sum + l.length := by
  cases l with
  | nil => exact absurd rfl h
  | cons a t =>
    simp only [List.sum_cons, List.map_cons, List.length_cons]
    have h1 : a < (⌊a⌋ : ℚ) + 1 := Int.lt_floor_add_one a
    have h2 := sum_le_floor_add_length t
    push_cast
    push_cast at h2
    linarith

theorem sum_floor_le_sum (l : List ℚ) :
    (l.map fun q => (⌊q⌋ : ℚ)).sum ≤ l.sum := by
  have := List.sum_le_sum (l := l) (f := fun q => (⌊q⌋ : ℚ)) (g := fun q => q)
    (fun i _ => Int.floor_le i)
  simpa using this

theorem rounded_values {odds : List (String × String × ℚ)} {S : ℤ}
    (hpos : ∀ e ∈ odds, 0 < e.2.2) (hne : odds ≠ []) (hS : 0 ≤ S) :
    ((roundedOf odds S).map (·.2)).sum =
      (odds.map fun e => ⌊idealShare odds S e.2.2⌋).sum := by
  rw [roundedOf_eq hpos hne hS, List.map_map]
  rfl

theorem sum_floor_ideal_cast {odds : List (String × String × ℚ)} {S : ℤ} :
    (((odds.map fun e => ⌊idealShare odds S e.2.2⌋).sum : ℤ) : ℚ) =
      ((odds.map fun e => idealShare odds S e.2.2).map fun q => (⌊q⌋ : ℚ)).sum := by
  rw [intCast_list_sum]
  simp only [List.map_map]
  rfl

theorem sum_ideal_shares {odds : List (String × String × ℚ)} {S : ℤ}
    (hpos : ∀ e ∈ odds, 0 < e.2.2) (hne : odds ≠ []) :
    (odds.map fun e => idealShare odds S e.2.2).sum = (S : ℚ) := by
  have h := sum_ideal (S := S) hpos hne
  rw [idealOf_eq, List.map_map] at h
  exact h

theorem remainderOf_nonneg {odds : List (String × String × ℚ)} {S : ℤ}
    (hpos : ∀ e ∈ odds, 0 < e.2.2) (hne : odds ≠ []) (hS : 0 ≤ S) :
    0 ≤ remainderOf odds S := by
  rw [remainderOf, rounded_values hpos hne hS]
  have hle : (((odds.map fun e => ⌊idealShare odds S e.2.2⌋).sum : ℤ) : ℚ) ≤ (S : ℚ) := by
    rw [sum_floor_ideal_cast]
    calc ((odds.map fun e => idealShare odds S e.2.2).map fun q => (⌊q⌋ : ℚ)).sum
        ≤ (odds.map fun e => idealShare odds S e.2.2).sum :=
          sum_floor_le_sum _
      _ = (S : ℚ) := sum_ideal_shares hpos hne
  have : (odds.map fun e => ⌊idealShare odds S e.2.2⌋).sum ≤ S := by exact_mod_cast hle
  omega

theorem remainderOf_lt {odds : List (String × String × ℚ)} {S : ℤ}
    (hpos : ∀ e ∈ odds, 0 < e.2.2) (hne : odds ≠ []) (hS : 0 ≤ S) :
    remainderOf odds S < odds.length := by
  rw [remainderOf, rounded_values hpos hne hS]
  have hlt : (S : ℚ) <
      (((odds.map fun e => ⌊idealShare odds S e.2.2⌋).sum : ℤ) : ℚ) + odds.length := by
    rw [sum_floor_ideal_cast]
    have hne2 : (odds.map fun e => idealShare odds S e.2.2) ≠ [] := by
      simpa using hne
    have h := sum_lt_floor_add_length hne2
    rw [sum_ideal_shares hpos hne] at h
    simpa using h
  have : S < (odds.map fun e => ⌊idealShare odds S e.2.2⌋).sum + odds.length := by
    exact_mod_cast hlt
  omega

theorem diffs_names (odds : List (String × String × ℚ)) (S : ℤ) :
    (diffsOf odds S).map (·.1) = odds.map (·.1) := by
  simp only [diffsOf, idealOf, invOf, List.map_map]
  rfl

theorem sortDesc_names_perm (odds : List (String × String × ℚ)) (S : ℤ) :
    List.Perm ((sortDesc (diffsOf odds S)).map (·.1)) (odds.map (·.1)) := by
  have h := (sortDesc_perm (diffsOf odds S)).map (·.1)
  rwa [diffs_names] at h

theorem winnersOf_nodup {odds : List (String × String × ℚ)} {S : ℤ}
    (hnd : (odds.map (·.1)).Nodup) : (winnersOf odds S).Nodup := by
  have h : ((sortDesc (diffsOf odds S)).map (·.1)).Nodup :=
    (sortDesc_names_perm odds S).nodup_iff.2 hnd
  exact (List.take_sublist _ _).nodup h

theorem winnersOf_subset {odds : List (String × String × ℚ)} {S : ℤ} :
    ∀ x ∈ winnersOf odds S, x ∈ odds.map (·.1) := by
  intro x hx
  exact (sortDesc_names_perm odds S).mem_iff.1 (List.mem_of_mem_take hx)

theorem winnersOf_length {odds : List (String × String × ℚ)} {S : ℤ}
    (hpos : ∀ e ∈ odds, 0 < e.2.2) (hne : odds ≠ []) (hS : 0 ≤ S) :
    (winnersOf odds S).length = (remainderOf odds S).toNat := by
  rw [winnersOf, List.length_take]
  have hlen : ((sortDesc (diffsOf odds S)).map (·.1)).length = odds.length := by
    rw [List.length_map, (sortDesc_perm _).length_eq, diffsOf, List.length_map,
      idealOf, List.length_map, invOf, List.length_map]
  rw [hlen]
  have h1 := remainderOf_lt hpos hne hS
  have h0 := remainderOf_nonneg hpos hne hS
  omega

theorem finalOf_eq {odds : List (String × String × ℚ)} {S : ℤ}
    (hpos : ∀ e ∈ odds, 0 < e.2.2) (hne : odds ≠ []) (hS : 0 ≤ S) :
    finalOf odds S = odds.map (fun e => (e.1, ⌊idealShare odds S e.2.2⌋ +
      if e.1 ∈ winnersOf odds S then (1 : ℤ) else 0)) := by
  by_cases hr : 0 < remainderOf odds S
  · rw [finalOf, if_pos hr, roundedOf_eq hpos hne hS, List.map_map]
    refine List.map_congr_left ?_
    intro e _
    simp only [Function.comp_apply]
    by_cases hw : e.1 ∈ winnersOf odds S
    · simp [hw]
    · simp [hw]
  · have hr0 : remainderOf odds S = 0 :=
      le_antisymm (not_lt.1 hr) (remainderOf_nonneg hpos hne hS)
    have hwin : winnersOf odds S = [] := by
      rw [winnersOf, hr0]
      rfl
    rw [finalOf, if_neg hr, roundedOf_eq hpos hne hS, hwin]
    simp

theorem finalOf_names {odds : List (String × String × ℚ)} {S : ℤ}
    (hpos : ∀ e ∈ odds, 0 < e.2.2) (hne : odds ≠ []) (hS : 0 ≤ S) :
    (finalOf odds S).map (·.1) = odds.map (·.1) := by
  rw [finalOf_eq hpos hne hS, List.map_map]
  rfl

theorem dictGet_finalOf {odds : List (String × String × ℚ)} {S : ℤ}
    (hpos : ∀ e ∈ odds, 0 < e.2.2) (hne : odds ≠ []) (hS : 0 ≤ S)
    (hnd : (odds.map (·.1)).Nodup) {e : String × String × ℚ} (he : e ∈ odds) :
    dictGet (finalOf odds S) e.1 = ⌊idealShare odds S e.2.2⌋ +
      if e.1 ∈ winnersOf odds S then (1 : ℤ) else 0 := by
  apply dictGet_of_mem
  · rw [finalOf_names hpos hne hS]
    exact hnd
  · rw [finalOf_eq hpos hne hS]
    exact List.mem_map.2 ⟨e, he, rfl⟩

theorem sum_ite_mem {α : Type} (l : List α) (key : α → String) (w : List String) :
    (l.map fun x => if key x ∈ w then (1 : ℤ) else 0).sum =
      (((l.map key).countP fun n => decide (n ∈ w) : ℕ) : ℤ) := by
  induction l with
  | nil => simp
  | cons a t ih =>
    simp only [List.map_cons, List.sum_cons, List.countP_cons, ih]
    by_cases h : key a ∈ w
    · simp only [if_pos h, h, decide_eq_true_eq, eq_self_iff_true, if_true]
      push_cast [List.countP_cons]
      simp [h]
      ring
    · simp [h]

theorem sum_award_form {odds : List (String × String × ℚ)} {S : ℤ}
    (hpos : ∀ e ∈ odds, 0 < e.2.2) (hne : odds ≠ []) (hS : 0 ≤ S)
    (hnd : (odds.map (·.1)).Nodup) :
    (odds.map fun e => ⌊idealShare odds S e.2.2⌋ +
      if e.1 ∈ winnersOf odds S then (1 : ℤ) else 0).sum = S := by
  rw [sum_map_add_int odds (fun e => ⌊idealShare odds S e.2.2⌋)
    (fun e => if e.1 ∈ winnersOf odds S then (1 : ℤ) else 0)]
  have h1 : remainderOf odds S =
      S - (odds.map fun e => ⌊idealShare odds S e.2.2⌋).sum := by
    rw [remainderOf, rounded_values hpos hne hS]
  have hind : (odds.map fun e => if e.1 ∈ winnersOf odds S then (1 : ℤ) else 0).sum =
      (((winnersOf odds S).length : ℕ) : ℤ) := by
    rw [sum_ite_mem]
    congr 1
    exact countP_mem_eq_length hnd (winnersOf_nodup hnd) winnersOf_subset
  rw [hind, winnersOf_length hpos hne hS]
  have h0 := remainderOf_nonneg hpos hne hS
  omega

theorem result_stakes {odds : List (String × String × ℚ)} {S : ℤ}
    (hpos : ∀ e ∈ odds, 0 < e.2.2) (hne : odds ≠ []) (hS : 0 ≤ S)
    (hnd : (odds.map (·.1)).Nodup) :
    (resultOf odds S).map (fun e => e.2.2.2.1) =
      odds.map (fun e => ⌊idealShare odds S e.2.2⌋ +
        if e.1 ∈ winnersOf odds S then (1 : ℤ) else 0) := by
  rw [resultOf, List.map_map]
  refine List.map_congr_left ?_
  intro e he
  simp only [Function.comp_apply]
  exact dictGet_finalOf hpos hne hS hnd he

/-! ## The best-odds dictionary fold -/

theorem combineOpt_none_left (z : Option (String × ℚ)) : combineOpt none z = z := by
  cases z with
  | none => rfl
  | some v => rfl

theorem combineOpt_none_right (z : Option (String × ℚ)) : combineOpt z none = z := rfl

theorem combineOpt_some_some (b0 b1 : String) (p0 p1 : ℚ) :
    combineOpt (some (b0, p0)) (some (b1, p1)) =
      if p0 < p1 then some (b1, p1) else some (b0, p0) := rfl

theorem combineOpt_assoc (c x y : Option (String × ℚ)) :
    combineOpt (combineOpt c x) y = combineOpt c (combineOpt x y) := by
  rcases c with _ | ⟨b0, p0⟩
  · rw [combineOpt_none_left, combineOpt_none_left]
  rcases x with _ | ⟨b1, p1⟩
  · rw [combineOpt_none_right, combineOpt_none_left]
  rcases y with _ | ⟨b2, p2⟩
  · rw [combineOpt_none_right, combineOpt_none_right]
  rw [combineOpt_some_some, combineOpt_some_some]
  by_cases h01 : p0 < p1
  · rw [if_pos h01, combineOpt_some_some]
    by_cases h12 : p1 < p2
    · rw [if_pos h12, combineOpt_some_some, if_pos (h01.trans h12)]
    · rw [if_neg h12, combineOpt_some_some, if_pos h01]
  · rw [if_neg h01, combineOpt_some_some]
    by_cases h12 : p1 < p2
    · rw [if_pos h12, combineOpt_some_some]
    · rw [if_neg h12, combineOpt_some_some,
        if_neg (not_lt.2 ((not_lt.1 h12).trans (not_lt.1 h01))), if_neg h01]

theorem lookupA_append (k : String) (l l2 : List (String × String × ℚ)) :
    lookupA k (l ++ l2) = match lookupA k l with
      | some v => some v
      | none => lookupA k l2 := by
  induction l with
  | nil => simp [lookupA]
  | cons e t ih =>
    by_cases h : e.1 = k
    · simp [lookupA, h]
    · simp [lookupA, h, ih]

theorem lookupA_updAssoc_ne {n nm : String} (h : n ≠ nm) (v : String × ℚ)
    (l : List (String × String × ℚ)) :
    lookupA nm (updAssoc n v l) = lookupA nm l := by
  induction l with
  | nil => rfl
  | cons e t ih =>
    rw [updAssoc]
    by_cases he : e.1 = n
    · rw [if_pos he]
      have h2 : ¬e.1 = nm := fun hh => h (he.symm.trans hh)
      rw [lookupA, if_neg h, lookupA, if_neg h2]
    · rw [if_neg he]
      by_cases hk : e.1 = nm
      · rw [lookupA, if_pos hk, lookupA, if_pos hk]
      · rw [lookupA, if_neg hk, lookupA, if_neg hk, ih]

theorem lookupA_updAssoc_self {k : String} (v : String × ℚ)
    {l : List (String × String × ℚ)} (h : (lookupA k l).isSome) :
    lookupA k (updAssoc k v l) = some v := by
  induction l with
  | nil => simp [lookupA] at h
  | cons e t ih =>
    by_cases he : e.1 = k
    · simp [updAssoc, he, lookupA]
    · simp only [lookupA, if_neg he] at h
      simp [updAssoc, he, lookupA, ih h]

theorem lookupA_dictInsertBest (acc : List (String × String × ℚ))
    (n b : String) (p : ℚ) (nm : String) :
    lookupA nm (dictInsertBest acc n b p) =
      if n = nm then combineOpt (lookupA nm acc) (some (b, p))
      else lookupA nm acc := by
  rw [dictInsertBest]
  cases hl : lookupA n acc with
  | none =>
    rw [lookupA_append]
    by_cases hn : n = nm
    · subst hn
      rw [hl]
      simp [lookupA, combineOpt]
    · cases hacc : lookupA nm acc with
      | none => simp [hacc, lookupA, Ne.symm hn, hn]
      | some v => simp [hacc, hn]
  | some v =>
    obtain ⟨b0, p0⟩ := v
    show lookupA nm (if p0 < p then updAssoc n (b, p) acc else acc) =
      if n = nm then combineOpt (lookupA nm acc) (some (b, p)) else lookupA nm acc
    by_cases hp : p0 < p
    · rw [if_pos hp]
      by_cases hn : n = nm
      · subst hn
        rw [lookupA_updAssoc_self (b, p) (by rw [hl]; rfl), hl, if_pos rfl,
          combineOpt_some_some, if_pos hp]
      · rw [lookupA_updAssoc_ne hn, if_neg hn]
    · rw [if_neg hp]
      by_cases hn : n = nm
      · subst hn
        rw [hl, if_pos rfl, combineOpt_some_some, if_neg hp]
      · rw [if_neg hn]

theorem lookupA_foldl_dictInsertBest (nm : String) (qs : List (String × String × ℚ)) :
    ∀ acc, lookupA nm (qs.foldl (fun a q => dictInsertBest a q.1 q.2.1 q.2.2) acc) =
      combineOpt (lookupA nm acc) (bestQuoteL nm qs) := by
  induction qs with
  | nil =>
    intro acc
    rw [List.foldl_nil]
    exact (combineOpt_none_right _).symm
  | cons q rest ih =>
    intro acc
    obtain ⟨qn, qb, qp⟩ := q
    rw [List.foldl_cons, ih, lookupA_dictInsertBest]
    by_cases hn : qn = nm
    · rw [if_pos hn, combineOpt_assoc]
      congr 1
      cases hb : bestQuoteL nm rest with
      | none => simp [bestQuoteL, hn, hb, combineOpt]
      | some v =>
        obtain ⟨b, p⟩ := v
        simp [bestQuoteL, hn, hb, combineOpt_some_some]
    · rw [if_neg hn]
      congr 1
      simp [bestQuoteL, hn]

theorem lookupA_foldQuotes (nm : String) (qs : List (String × String × ℚ)) :
    lookupA nm (foldQuotes qs) = bestQuoteL nm qs := by
  rw [foldQuotes, lookupA_foldl_dictInsertBest]
  exact combineOpt_none_left _

theorem bestQuoteL_none_iff (nm : String) (qs : List (String × String × ℚ)) :
    bestQuoteL nm qs = none ↔ qs.filter (fun q => decide (q.1 = nm)) = [] := by
  induction qs with
  | nil => simp [bestQuoteL]
  | cons q rest ih =>
    by_cases hn : q.1 = nm
    · simp only [bestQuoteL, if_pos hn, List.filter_cons, hn, decide_eq_true_eq]
      cases hb : bestQuoteL nm rest with
      | none => simp
      | some v =>
        obtain ⟨b, p⟩ := v
        by_cases hq : q.2.2 < p <;> simp [hq]
    · simp only [bestQuoteL, if_neg hn, List.filter_cons, hn, decide_eq_true_eq]
      simpa using ih

theorem bestQuoteL_spec (nm : String) (qs : List (String × String × ℚ)) :
    ∀ bk p, bestQuoteL nm qs = some (bk, p) →
      ∃ pre suf, qs.filter (fun q => decide (q.1 = nm)) = pre ++ (nm, bk, p) :: suf ∧
        (∀ x ∈ pre, x.2.2 < p) ∧ (∀ x ∈ suf, x.2.2 ≤ p) := by
  induction qs with
  | nil =>
    intro bk p h
    simp [bestQuoteL] at h
  | cons q rest ih =>
    intro bk p h
    obtain ⟨qn, qb, qp⟩ := q
    by_cases hn : qn = nm
    · cases hb : bestQuoteL nm rest with
      | none =>
        simp only [bestQuoteL, hn, eq_self_iff_true, if_true, hb,
          Option.some_inj] at h
        rw [Prod.mk.injEq] at h
        obtain ⟨rfl, rfl⟩ := h
        have hfil : rest.filter (fun q => decide (q.1 = nm)) = [] :=
          (bestQuoteL_none_iff nm rest).1 hb
        subst hn
        refine ⟨[], [], ?_, by simp, by simp⟩
        simp [List.filter_cons, hfil]
      | some v =>
        obtain ⟨b, p0⟩ := v
        by_cases hq : qp < p0
        · simp only [bestQuoteL, hn, eq_self_iff_true, if_true, hb, if_pos hq,
            Option.some_inj] at h
          rw [Prod.mk.injEq] at h
          obtain ⟨rfl, rfl⟩ := h
          obtain ⟨pre, suf, hfil, hpre, hsuf⟩ := ih b p0 hb
          refine ⟨(qn, qb, qp) :: pre, suf, ?_, ?_, hsuf⟩
          · subst hn
            simp [List.filter_cons, hfil]
          · intro x hx
            rcases List.mem_cons.1 hx with rfl | hx2
            · exact hq
            · exact hpre x hx2
        · simp only [bestQuoteL, hn, eq_self_iff_true, if_true, hb, if_neg hq,
            Option.some_inj] at h
          rw [Prod.mk.injEq] at h
          obtain ⟨rfl, rfl⟩ := h
          obtain ⟨pre, suf, hfil, hpre, hsuf⟩ := ih b p0 hb
          have hp0 : p0 ≤ qp := not_lt.1 hq
          refine ⟨[], rest.filter (fun q => decide (q.1 = nm)), ?_, by simp, ?_⟩
          · subst hn
            simp [List.filter_cons]
          · intro x hx
            rw [hfil] at hx
            rcases List.mem_append.1 hx with hx2 | hx2
            · exact le_of_lt (lt_of_lt_of_le (hpre x hx2) hp0)
            · rcases List.mem_cons.1 hx2 with rfl | hx3
              · exact hp0
              · exact le_trans (hsuf x hx3) hp0
    · simp only [bestQuoteL, hn, if_false] at h
      obtain ⟨pre, suf, hfil, hpre, hsuf⟩ := ih bk p h
      exact ⟨pre, suf, by simp [List.filter_cons, hn, hfil], hpre, hsuf⟩

theorem bookmakerOutcomes_ok {b : Bookmaker} (hne : b.markets ≠ some []) :
    bookmakerOutcomes b = .ok (outcomesOf b) := by
  cases hmk : b.markets with
  | none => simp [bookmakerOutcomes, outcomesOf, hmk]
  | some l =>
    cases l with
    | nil => exact absurd hmk hne
    | cons m ms => simp [bookmakerOutcomes, outcomesOf, hmk]

theorem buildBestOddsAux_ok {bs : List Bookmaker}
    (hne : ∀ b ∈ bs, b.markets ≠ some []) :
    ∀ acc, buildBestOddsAux acc bs =
      .ok ((quotesOf bs).foldl (fun a q => dictInsertBest a q.1 q.2.1 q.2.2) acc) := by
  induction bs with
  | nil => intro acc; rfl
  | cons b rest ih =>
    intro acc
    have hb := bookmakerOutcomes_ok (hne b (List.mem_cons_self b rest))
    simp only [buildBestOddsAux, hb]
    rw [ih (fun x hx => hne x (List.mem_cons_of_mem b hx))]
    rw [quotesOf, List.foldl_append, List.foldl_map]

theorem buildBestOdds_ok {bs : List Bookmaker}
    (hne : ∀ b ∈ bs, b.markets ≠ some []) :
    buildBestOdds bs = .ok (foldQuotes (quotesOf bs)) := by
  rw [buildBestOdds, buildBestOddsAux_ok hne, foldQuotes]

/-! ## Error propagation of zero prices -/

theorem sumInv_error {l : List (String × String × ℚ)} (h : ∃ e ∈ l, e.2.2 = 0) :
    sumInv l = .error "ZeroDivisionError: float division by zero" := by
  induction l with
  | nil => simp at h
  | cons e t ih =>
    by_cases he : e.2.2 = 0
    · simp [sumInv, safeInv, he]
    · obtain ⟨x, hx, hx0⟩ := h
      rcases List.mem_cons.1 hx with rfl | hx2
      · exact absurd hx0 he
      · simp only [sumInv, safeInv, if_neg he, ih ⟨x, hx2, hx0⟩]

theorem invList_error {l : List (String × String × ℚ)} (h : ∃ e ∈ l, e.2.2 = 0) :
    invList l = .error "ZeroDivisionError: float division by zero" := by
  induction l with
  | nil => simp at h
  | cons e t ih =>
    by_cases he : e.2.2 = 0
    · simp [invList, safeInv, he]
    · obtain ⟨x, hx, hx0⟩ := h
      rcases List.mem_cons.1 hx with rfl | hx2
      · exact absurd hx0 he
      · simp only [invList, safeInv, if_neg he, ih ⟨x, hx2, hx0⟩]

theorem calculate_stakes_error {l : List (String × String × ℚ)} (S : ℤ)
    (h : ∃ e ∈ l, e.2.2 = 0) :
    calculate_stakes l S = .error "ZeroDivisionError: float division by zero" := by
  simp only [calculate_stakes, invList_error h]

/-! ## The normalizer on malformed and started matches -/

theorem processMatch_no_commence {now : ℚ} {inc : Bool} {m : RawMatch}
    (h : m.commence_time = none) :
    processMatch now inc m = .error "KeyError: commence_time" := by
  simp only [processMatch, h]

theorem processMatch_match_name {now : ℚ} {inc : Bool} {m : RawMatch}
    {nm : NormalizedMatch} (h : processMatch now inc m = .ok (some nm)) :
    nm.match_name = pyStr m.home_team ++ " v. " ++ pyStr m.away_team := by
  unfold processMatch at h
  split at h
  · simp at h
  · split at h
    · simp at h
    · unfold processMatchRest at h
      split at h
      · simp at h
      · split at h
        · simp at h
        · split at h
          · simp at h
          · simp only [Except.ok.injEq, Option.some.injEq] at h
            rw [← h]

/-! ## Claim theorems -/

/-- C1: for every odds mapping with positive prices (at least two outcomes,
distinct outcome names) and every positive integer total stake,
`calculate_stakes` succeeds and the integer stakes it returns sum to exactly
`total_stake` — also when `total_stake` is not divisible by the number of
outcomes. -/
theorem stake_conservation (odds : List (String × String × ℚ)) (S : ℤ)
    (hpos : ∀ e ∈ odds, 0 < e.2.2) (hnd : (odds.map (·.1)).Nodup)
    (hlen : 2 ≤ odds.length) (hS : 0 < S) :
    (calculate_stakes odds S).map (fun res => (res.map fun e => e.2.2.2.1).sum) =
      .ok S := by
  have hne : odds ≠ [] := by
    intro h
    rw [h] at hlen
    simp at hlen
  rw [calculate_stakes_eq hpos hne]
  simp only [Except.map]
  rw [result_stakes hpos hne (le_of_lt hS) hnd,
    sum_award_form hpos hne (le_of_lt hS) hnd]

/-- Witness for C1: the two-outcome mapping `{A: 1.5, B: 3.0}` with total
stake 101 (not divisible by 2) satisfies the hypotheses, and the stakes sum
to exactly 101. -/
theorem stake_conservation_witness :
    (∀ e ∈ oddsC8, 0 < e.2.2) ∧ (oddsC8.map (·.1)).Nodup ∧
    2 ≤ oddsC8.length ∧ (0 : ℤ) < 101 ∧
    (calculate_stakes oddsC8 101).map
      (fun res => (res.map fun e => e.2.2.2.1).sum) = .ok 101 :=
  ⟨by with_unfolding_all decide, by with_unfolding_all decide,
   by with_unfolding_all decide, by norm_num,
   stake_conservation oddsC8 101 (by with_unfolding_all decide)
     (by with_unfolding_all decide) (by with_unfolding_all decide) (by norm_num)⟩

/-- C2: for every bookmaker list without a present-but-empty market list, the
best-odds dict construction succeeds; every outcome name quoted by at least
one bookmaker has an entry in the dict; and every stored entry is the
maximum quoted price for its name — when several quotes tie on the maximum,
the stored entry is the quote encountered first in iteration order (every
earlier quote for that name is strictly cheaper, every later one is at most
as good). -/
theorem best_price_selection (bs : List Bookmaker)
    (hmk : ∀ b ∈ bs, b.markets ≠ some []) :
    buildBestOdds bs = .ok (foldQuotes (quotesOf bs)) ∧
    (∀ nm, (∃ q ∈ quotesOf bs, q.1 = nm) →
      ∃ bk p, lookupA nm (foldQuotes (quotesOf bs)) = some (bk, p)) ∧
    ∀ nm bk p, lookupA nm (foldQuotes (quotesOf bs)) = some (bk, p) →
      ∃ pre suf,
        (quotesOf bs).filter (fun q => decide (q.1 = nm)) =
          pre ++ (nm, bk, p) :: suf ∧
        (∀ x ∈ pre, x.2.2 < p) ∧ (∀ x ∈ suf, x.2.2 ≤ p) := by
  refine ⟨buildBestOdds_ok hmk, ?_, ?_⟩
  · intro nm hq
    obtain ⟨q, hq, hq1⟩ := hq
    rw [lookupA_foldQuotes]
    cases hb : bestQuoteL nm (quotesOf bs) with
    | none =>
      exfalso
      have hfil := (bestQuoteL_none_iff nm (quotesOf bs)).1 hb
      have hmem : q ∈ (quotesOf bs).filter (fun q => decide (q.1 = nm)) :=
        List.mem_filter.2 ⟨hq, by simp [hq1]⟩
      rw [hfil] at hmem
      cases hmem
    | some v =>
      obtain ⟨bk, p⟩ := v
      exact ⟨bk, p, rfl⟩
  · intro nm bk p h
    rw [lookupA_foldQuotes] at h
    exact bestQuoteL_spec nm (quotesOf bs) bk p h

/-- Witness for C2: in the spec's example (Bookmaker1: A@2.10, B@2.05;
Bookmaker2: A@2.00, B@2.20) the selected quotes are A@2.10 from Bookmaker1
and B@2.20 from Bookmaker2. -/
theorem best_price_selection_witness :
    (∀ b ∈ bsC2, b.markets ≠ some []) ∧
    buildBestOdds bsC2 = .ok (foldQuotes (quotesOf bsC2)) ∧
    (∃ bk p, lookupA "A" (foldQuotes (quotesOf bsC2)) = some (bk, p)) ∧
    (∃ bk p, lookupA "B" (foldQuotes (quotesOf bsC2)) = some (bk, p)) ∧
    lookupA "A" (foldQuotes (quotesOf bsC2)) = some ("Bookmaker1", 21 / 10) ∧
    lookupA "B" (foldQuotes (quotesOf bsC2)) = some ("Bookmaker2", 11 / 5) :=
  ⟨by with_unfolding_all decide,
   (best_price_selection bsC2 (by with_unfolding_all decide)).1,
   (best_price_selection bsC2 (by with_unfolding_all decide)).2.1 "A"
     (by with_unfolding_all decide),
   (best_price_selection bsC2 (by with_unfolding_all decide)).2.1 "B"
     (by with_unfolding_all decide),
   by with_unfolding_all decide, by with_unfolding_all decide⟩

/-- C3: a normalized match passes the opportunity filter exactly when
`0 < total_implied_odds < 1 - cutoff`, with both bounds strict: the boundary
values `1 - cutoff` and `0` never qualify. -/
theorem opportunity_threshold (ms : List NormalizedMatch) (m : NormalizedMatch)
    (c : ℚ) :
    (m ∈ arbitrage_candidates ms c ↔
      m ∈ ms ∧ 0 < m.total_implied_odds ∧ m.total_implied_odds < 1 - c) ∧
    qualifies (1 - c) c = false ∧ qualifies 0 c = false := by
  refine ⟨?_, ?_, ?_⟩
  · rw [arbitrage_candidates, List.mem_filter]
    simp [qualifies, and_assoc]
  · simp [qualifies]
  · simp [qualifies]

/-- C4: for every odds mapping with positive prices and positive total
stake, the leftover `total_stake - sum(floor(ideal share))` is a
non-negative integer strictly below the number of outcomes; the ranking used
to distribute it is sorted by descending fractional remainder and stable
(ties keep the order in which outcomes appear in the input mapping); and the
returned stakes are exactly the floors plus one extra unit for each of the
top `remainder` ranked outcomes. -/
theorem remainder_allocation (odds : List (String × String × ℚ)) (S : ℤ)
    (hpos : ∀ e ∈ odds, 0 < e.2.2) (hnd : (odds.map (·.1)).Nodup)
    (hlen : 2 ≤ odds.length) (hS : 0 < S) :
    0 ≤ S - (odds.map fun e => ⌊idealShare odds S e.2.2⌋).sum ∧
    S - (odds.map fun e => ⌊idealShare odds S e.2.2⌋).sum < odds.length ∧
    (sortDesc (odds.map fun e => (e.1, Int.fract (idealShare odds S e.2.2)))).Pairwise
      (fun a b => b.2 ≤ a.2) ∧
    (∀ q : ℚ,
      (sortDesc (odds.map fun e =>
          (e.1, Int.fract (idealShare odds S e.2.2)))).filter
          (fun e => decide (e.2 = q)) =
        (odds.map fun e => (e.1, Int.fract (idealShare odds S e.2.2))).filter
          (fun e => decide (e.2 = q))) ∧
    (calculate_stakes odds S).map (fun res => res.map fun e => (e.1, e.2.2.2.1)) =
      .ok (odds.map fun e => (e.1, ⌊idealShare odds S e.2.2⌋ +
        if e.1 ∈ ((sortDesc (odds.map fun x =>
            (x.1, Int.fract (idealShare odds S x.2.2)))).map (·.1)).take
            (S - (odds.map fun x => ⌊idealShare odds S x.2.2⌋).sum).toNat
        then 1 else 0)) := by
  have hne : odds ≠ [] := by
    intro h
    rw [h] at hlen
    simp at hlen
  have hS' : (0 : ℤ) ≤ S := le_of_lt hS
  have hrem : remainderOf odds S =
      S - (odds.map fun e => ⌊idealShare odds S e.2.2⌋).sum := by
    rw [remainderOf, rounded_values hpos hne hS']
  have hdiffs : diffsOf odds S =
      odds.map fun e => (e.1, Int.fract (idealShare odds S e.2.2)) :=
    diffsOf_eq hpos hne hS'
  have hwin : winnersOf odds S =
      ((sortDesc (odds.map fun x =>
          (x.1, Int.fract (idealShare odds S x.2.2)))).map (·.1)).take
        (S - (odds.map fun x => ⌊idealShare odds S x.2.2⌋).sum).toNat := by
    rw [winnersOf, hdiffs, hrem]
  refine ⟨?_, ?_, ?_, ?_, ?_⟩
  · rw [← hrem]
    exact remainderOf_nonneg hpos hne hS'
  · rw [← hrem]
    exact remainderOf_lt hpos hne hS'
  · exact sortDesc_sorted _
  · intro q
    exact sortDesc_filter_key _ q
  · rw [calculate_stakes_eq hpos hne]
    simp only [Except.map]
    have hproj : (resultOf odds S).map (fun e => (e.1, e.2.2.2.1)) =
        odds.map (fun e => (e.1, dictGet (finalOf odds S) e.1)) := by
      rw [resultOf, List.map_map]
      rfl
    rw [hproj, ← hwin]
    congr 1
    refine List.map_congr_left ?_
    intro e he
    rw [dictGet_finalOf hpos hne hS' hnd he]

/-- Witness for C4: the mapping `{A: 1.5, B: 3.0}` with total stake 100
satisfies the hypotheses, and its remainder lies in `[0, 2)`. -/
theorem remainder_allocation_witness :
    (∀ e ∈ oddsC8, 0 < e.2.2) ∧ (oddsC8.map (·.1)).Nodup ∧
    2 ≤ oddsC8.length ∧ (0 : ℤ) < 100 ∧
    0 ≤ 100 - (oddsC8.map fun e => ⌊idealShare oddsC8 100 e.2.2⌋).sum ∧
    100 - (oddsC8.map fun e => ⌊idealShare oddsC8 100 e.2.2⌋).sum < oddsC8.length :=
  ⟨by with_unfolding_all decide, by with_unfolding_all decide,
   by with_unfolding_all decide, by norm_num,
   (remainder_allocation oddsC8 100 (by with_unfolding_all decide)
     (by with_unfolding_all decide) (by with_unfolding_all decide) (by norm_num)).1,
   (remainder_allocation oddsC8 100 (by with_unfolding_all decide)
     (by with_unfolding_all decide) (by with_unfolding_all decide)
     (by norm_num)).2.1⟩

/-- C5 counterexample: a bookmaker whose `markets` key is present but holds
an empty list makes the best-odds construction — and hence the normalizer —
raise an `IndexError` rather than contribute nothing. -/
theorem empty_market_list_raises :
    buildBestOdds [bEmptyMarkets] = .error "IndexError: list index out of range" ∧
    processMatch 0 true mEmptyMarkets =
      .error "IndexError: list index out of range" := by
  constructor <;> with_unfolding_all decide

/-- C5 amended: a bookmaker whose `markets` key is absent, or whose first
market has an absent or empty outcome list, contributes no entries to the
best-odds dict and raises no error (processing simply continues with the
remaining bookmakers). -/
theorem empty_market_contribution (b : Bookmaker)
    (h : b.markets = none ∨
      ∃ m ms, b.markets = some (m :: ms) ∧ m.outcomes.getD [] = []) :
    ∀ acc bs, buildBestOddsAux acc (b :: bs) = buildBestOddsAux acc bs := by
  have hout : bookmakerOutcomes b = .ok [] := by
    rcases h with h | ⟨m, ms, hm, ho⟩
    · simp [bookmakerOutcomes, h]
    · simp [bookmakerOutcomes, hm, ho]
  intro acc bs
  simp only [buildBestOddsAux, hout, List.foldl_nil]

/-- Witness for C5 amended: a bookmaker with no `markets` key is skipped. -/
theorem empty_market_contribution_witness :
    (bNoMarkets.markets = none ∨ ∃ m ms, bNoMarkets.markets = some (m :: ms) ∧
      m.outcomes.getD [] = []) ∧
    buildBestOddsAux [] [bNoMarkets] = buildBestOddsAux [] [] :=
  ⟨Or.inl rfl, empty_market_contribution bNoMarkets (Or.inl rfl) [] []⟩

/-- C6 counterexample: a raw match with no `home_team` key is normalized
without any error, and the missing field is silently rendered as the string
`"None"` in the match name — not a hard failure. -/
theorem missing_home_team_no_failure :
    (processMatch 0 true mNoHome).map (Option.map (·.match_name)) =
      .ok (some "None v. Away") := by
  with_unfolding_all decide

/-- C6 amended: only a missing `commence_time` is a hard failure
(a `KeyError` propagates); a missing home or away team is not an error — the
normalizer silently substitutes the string `"None"` in the match name. -/
theorem missing_identity_fields (now : ℚ) (inc : Bool) (m : RawMatch) :
    (m.commence_time = none →
      processMatch now inc m = .error "KeyError: commence_time") ∧
    ∀ nm, processMatch now inc m = .ok (some nm) →
      nm.match_name = pyStr m.home_team ++ " v. " ++ pyStr m.away_team :=
  ⟨fun h => processMatch_no_commence h, fun _ h => processMatch_match_name h⟩

/-- Witness for C6 amended: `mNoCommence` fails with a `KeyError`, while the
fully populated `mFull` yields a match whose name is built from its two team
fields. -/
theorem missing_identity_fields_witness :
    mNoCommence.commence_time = none ∧
    processMatch 0 true mNoCommence = .error "KeyError: commence_time" ∧
    processMatch 0 true mFull = .ok (some nmFull) ∧
    nmFull.match_name = pyStr mFull.home_team ++ " v. " ++ pyStr mFull.away_team :=
  ⟨rfl, (missing_identity_fields 0 true mNoCommence).1 rfl,
   by with_unfolding_all decide,
   (missing_identity_fields 0 true mFull).2 nmFull (by with_unfolding_all decide)⟩

/-- C7: an input containing a zero price makes both the normalizer's
total-implied-odds sum and the allocator's inverse-odds computation fail
with a `ZeroDivisionError` — the violating price is neither clamped nor
skipped. -/
theorem zero_price_division_error (l : List (String × String × ℚ)) (S : ℤ)
    (h : ∃ e ∈ l, e.2.2 = 0) :
    sumInv l = .error "ZeroDivisionError: float division by zero" ∧
    calculate_stakes l S = .error "ZeroDivisionError: float division by zero" :=
  ⟨sumInv_error h, calculate_stakes_error S h⟩

/-- Witness for C7: the singleton mapping `{A: 0}`. -/
theorem zero_price_division_error_witness :
    (∃ e ∈ oddsZero, e.2.2 = 0) ∧
    sumInv oddsZero = .error "ZeroDivisionError: float division by zero" ∧
    calculate_stakes oddsZero 100 =
      .error "ZeroDivisionError: float division by zero" :=
  ⟨by with_unfolding_all decide,
   (zero_price_division_error oddsZero 100 (by with_unfolding_all decide)).1,
   (zero_price_division_error oddsZero 100 (by with_unfolding_all decide)).2⟩

/-- C8: on the odds mapping `{A: 1.5, B: 3.0}` with total stake 100 the
allocator floors the ideal shares to 66 and 33, is left with remainder 1,
awards it to A (the larger fractional part), and returns stakes
`{A: 67, B: 33}` summing to 100. -/
theorem example_stakes_allocation :
    calculate_stakes oddsC8 100 =
      .ok [("A", "BookieX", 3 / 2, 67, 1 / 2), ("B", "BookieY", 3, 33, -1)] ∧
    ⌊idealShare oddsC8 100 (3 / 2)⌋ = 66 ∧ ⌊idealShare oddsC8 100 3⌋ = 33 ∧
    100 - (oddsC8.map fun e => ⌊idealShare oddsC8 100 e.2.2⌋).sum = 1 ∧
    (calculate_stakes oddsC8 100).map
      (fun res => (res.map fun e => e.2.2.2.1).sum) = .ok 100 := by
  refine ⟨?_, ?_, ?_, ?_, ?_⟩ <;> with_unfolding_all decide

/-- C9: a raw match whose commence time is strictly in the past is skipped
when `include_started_matches` is false, and when the flag is true the time
check has no effect — processing proceeds to the rest of the loop body
regardless of the implied odds. -/
theorem started_match_filter (now : ℚ) (m : RawMatch) (st : Int)
    (hst : m.commence_time = some st) (hpast : (st : ℚ) < now) :
    processMatch now false m = .ok none ∧
    processMatch now true m = processMatchRest now m st := by
  constructor
  · simp only [processMatch, hst]
    rw [if_pos ⟨trivial, hpast⟩]
  · simp only [processMatch, hst]
    rw [if_neg (by simp)]

/-- Witness for C9: `mPast` commences at 0, which is in the past at
`now = 1`. -/
theorem started_match_filter_witness :
    mPast.commence_time = some 0 ∧ ((0 : Int) : ℚ) < 1 ∧
    processMatch 1 false mPast = .ok none ∧
    processMatch 1 true mPast = processMatchRest 1 mPast 0 :=
  ⟨rfl, by norm_num, (started_match_filter 1 mPast 0 rfl (by norm_num)).1,
   (started_match_filter 1 mPast 0 rfl (by norm_num)).2⟩

/-- C10: under the allocator's preconditions each returned stake equals the
floor of its outcome's ideal share or that floor plus exactly one unit: no
outcome receives more than one remainder unit and no stake drops below its
floored share. -/
theorem stake_floor_bound (odds : List (String × String × ℚ)) (S : ℤ)
    (hpos : ∀ e ∈ odds, 0 < e.2.2) (hnd : (odds.map (·.1)).Nodup)
    (hlen : 2 ≤ odds.length) (hS : 0 < S) :
    ∃ res, calculate_stakes odds S = .ok res ∧
      ∀ e ∈ res, e.2.2.2.1 = ⌊idealShare odds S e.2.2.1⌋ ∨
        e.2.2.2.1 = ⌊idealShare odds S e.2.2.1⌋ + 1 := by
  have hne : odds ≠ [] := by
    intro h
    rw [h] at hlen
    simp at hlen
  have hS' : (0 : ℤ) ≤ S := le_of_lt hS
  refine ⟨resultOf odds S, calculate_stakes_eq hpos hne, ?_⟩
  intro e he
  rw [resultOf] at he
  obtain ⟨a, ha, rfl⟩ := List.mem_map.1 he
  show dictGet (finalOf odds S) a.1 = ⌊idealShare odds S a.2.2⌋ ∨
    dictGet (finalOf odds S) a.1 = ⌊idealShare odds S a.2.2⌋ + 1
  rw [dictGet_finalOf hpos hne hS' hnd ha]
  by_cases hw : a.1 ∈ winnersOf odds S
  · right
    rw [if_pos hw]
  · left
    rw [if_neg hw]
    ring

/-- Witness for C10: the mapping `{A: 1.5, B: 3.0}` with total stake 100. -/
theorem stake_floor_bound_witness :
    (∀ e ∈ oddsC8, 0 < e.2.2) ∧ (oddsC8.map (·.1)).Nodup ∧
    2 ≤ oddsC8.length ∧ (0 : ℤ) < 100 ∧
    ∃ res, calculate_stakes oddsC8 100 = .ok res ∧
      ∀ e ∈ res, e.2.2.2.1 = ⌊idealShare oddsC8 100 e.2.2.1⌋ ∨
        e.2.2.2.1 = ⌊idealShare oddsC8 100 e.2.2.1⌋ + 1 :=
  ⟨by with_unfolding_all decide, by with_unfolding_all decide,
   by with_unfolding_all decide, by norm_num,
   stake_floor_bound oddsC8 100 (by with_unfolding_all decide)
     (by with_unfolding_all decide) (by with_unfolding_all decide) (by norm_num)⟩

end ArbFinder
